import Mathlib

set_option maxRecDepth 8000

/-!
Verification of the prompt-to-structured-data pipeline of the digital-economy
research assistant.  The definitions below are a shallow embedding, over
`List Char`, of the TypeScript functions `translateKeywords`,
`parseArticleResponse` and `fetchDigitalEconomyArticles` (file
`src/unnamed/part_001`), together with the data model of `src/unnamed/part_000`.

The parser in the source is the regular expression

  `标题[：:]([\s\S]*?)摘要[：:]([\s\S]*?)来源[：:]([\s\S]*?)(?=标题[：:]|$)`

run in a `regex.exec` loop.  Its lazy captures mean: each match begins at the
first occurrence of `标题` followed by a (full- or half-width) colon, capture 1
runs to the first following `摘要`+colon, capture 2 to the first following
`来源`+colon, and capture 3 to the position of the next `标题`+colon (the
lookahead) or the end of the input; the next search resumes there.  A match
exists exactly when the three labels occur in that order, so the scan below
(`scanArticles`) reproduces the exec loop exactly.
-/

namespace DigitalEconomy
/-- The whitespace set of JavaScript (`String.prototype.trim` and regex `\s`):
ECMAScript WhiteSpace plus LineTerminator code points. -/
def isJsWhitespace (c : Char) : Bool :=
  c == '\t' || c == '\n' || c == '\x0b' || c == '\x0c' || c == '\r' || c == ' ' ||
  c == '\u00A0' || c == '\u1680' ||
  (0x2000 ≤ c.toNat && c.toNat ≤ 0x200A) ||
  c == '\u2028' || c == '\u2029' || c == '\u202F' || c == '\u205F' ||
  c == '\u3000' || c == '\uFEFF'

/-- JavaScript `String.prototype.trim`: drop leading and trailing whitespace. -/
def trimChars (s : List Char) : List Char :=
  ((s.dropWhile isJsWhitespace).reverse.dropWhile isJsWhitespace).reverse

/-- The character class `[：:]` of the parser regex: full-width or half-width colon. -/
def isColon (c : Char) : Bool :=
  c == '：' || c == ':'

/-- If `s` begins with the two label characters `l0 l1` followed by a colon of
either width, return the remainder after the colon; otherwise `none`.
This is the literal part `l0 l1 [：:]` of the regex, tested at one position. -/
def stripLabel2 (l0 l1 : Char) : List Char → Option (List Char)
  | a :: b :: c :: rest => if a == l0 && b == l1 && isColon c then some rest else none
  | _ => none

/-- Split `s` at the first occurrence of the label `l0 l1`+colon: returns
`some (pre, post)` where `pre` is the text before the label and `post` the text
after its colon, or `none` when the label does not occur.  This realises one
lazy capture `([\s\S]*?)` terminated by the label. -/
def splitAtLabel (l0 l1 : Char) : List Char → Option (List Char × List Char)
  | [] => none
  | c :: cs =>
    match stripLabel2 l0 l1 (c :: cs) with
    | some rest => some ([], rest)
    | none =>
      match splitAtLabel l0 l1 cs with
      | some p => some (c :: p.1, p.2)
      | none => none

/-- Does the label `l0 l1`+colon occur anywhere in `s`? -/
def hasLabel (l0 l1 : Char) : List Char → Bool
  | [] => false
  | c :: cs => (stripLabel2 l0 l1 (c :: cs)).isSome || hasLabel l0 l1 cs

/-- Take characters up to (not including) the first occurrence of the label
`l0 l1`+colon, returning the taken part and the rest (which starts at the label,
or is empty when the label does not occur).  This realises the lazy capture 3
bounded by the lookahead `(?=标题[：:]|$)`. -/
def takeUntilLabel (l0 l1 : Char) : List Char → List Char × List Char
  | [] => ([], [])
  | c :: cs =>
    if (stripLabel2 l0 l1 (c :: cs)).isSome then ([], c :: cs)
    else
      let p := takeUntilLabel l0 l1 cs
      (c :: p.1, p.2)

/-- One raw regex match: the three captured field bodies (title, summary, source). -/
abbrev RawMatch := List Char × List Char × List Char

/-- One step of the `regex.exec` loop of `parseArticleResponse`, with a fuel
bound (structural recursion so that everything computes): find
`标题[：:] … 摘要[：:] … 来源[：:] …`, record the captures, and resume after the
lookahead position.  When one of the three labels is missing from the
remaining input there is no further match (the regex cannot match anywhere
later either, since a match starting later would need the same labels further
right). -/
def scanArticlesGo : Nat → List Char → List RawMatch
  | 0, _ => []
  | fuel + 1, text =>
    match splitAtLabel '标' '题' text with
    | none => []
    | some p1 =>
      match splitAtLabel '摘' '要' p1.2 with
      | none => []
      | some p2 =>
        match splitAtLabel '来' '源' p2.2 with
        | none => []
        | some p3 =>
          (p2.1, p3.1, (takeUntilLabel '标' '题' p3.2).1) ::
            scanArticlesGo fuel (takeUntilLabel '标' '题' p3.2).2

/-- The full `regex.exec` loop: each step consumes at least one character of
the remaining input, so `length + 1` units of fuel can never run out
(`scanArticlesGo_fuel` makes this precise). -/
def scanArticles (text : List Char) : List RawMatch :=
  scanArticlesGo (text.length + 1) text

/-- The character class `[^\s"'\)<>]` of the URL regex: anything but JS
whitespace, double quote, single quote, close-paren, `<`, `>`. -/
def isUrlChar (c : Char) : Bool :=
  !(isJsWhitespace c || c == '"' || c == '\'' || c == ')' || c == '<' || c == '>')

/-- The literal characters of `https://`. -/
def httpsScheme : List Char := ['h', 't', 't', 'p', 's', ':', '/', '/']

/-- The literal characters of `http://`. -/
def httpScheme : List Char := ['h', 't', 't', 'p', ':', '/', '/']

/-- Strip a literal character sequence from the front of a list. -/
def stripLit : List Char → List Char → Option (List Char)
  | [], s => some s
  | _ :: _, [] => none
  | p :: ps, c :: cs => if c == p then stripLit ps cs else none

/-- Try to match `https?:\/\/[^\s"'\)<>]+` at the start of `s`: the scheme
literal (the optional `s` is decided by the character after `http`), then a
maximal non-empty run of URL characters. -/
def matchUrlAt (s : List Char) : Option (List Char) :=
  match stripLit httpsScheme s with
  | some rest =>
    if (rest.takeWhile isUrlChar).isEmpty then none
    else some (httpsScheme ++ rest.takeWhile isUrlChar)
  | none =>
    match stripLit httpScheme s with
    | some rest =>
      if (rest.takeWhile isUrlChar).isEmpty then none
      else some (httpScheme ++ rest.takeWhile isUrlChar)
    | none => none

/-- `source.match(/https?:\/\/[^\s"'\)<>]+/)`: the leftmost match of the URL
pattern in `s`, or `none`. -/
def findUrl : List Char → Option (List Char)
  | [] => none
  | c :: cs =>
    match matchUrlAt (c :: cs) with
    | some u => some u
    | none => findUrl cs

/-- The source-field post-processing of `parseArticleResponse`: trim the raw
capture, then replace it with the first URL found inside it, if any. -/
def resolveSource (raw : List Char) : List Char :=
  match findUrl (trimChars raw) with
  | some u => u
  | none => trimChars raw

/-- The `Article` interface of `src/unnamed/part_000`. -/
structure Article where
  title : List Char
  summary : List Char
  source : List Char
deriving DecidableEq, Repr

/-- `parseArticleResponse`: scan for matches, trim the captures, extract a URL
from the source field, and keep the record only when all three fields are
non-empty (JS string truthiness). -/
def parseArticleResponse (text : List Char) : List Article :=
  (scanArticles text).filterMap fun m =>
    if trimChars m.1 ≠ [] ∧ trimChars m.2.1 ≠ [] ∧ resolveSource m.2.2 ≠ [] then
      some { title := trimChars m.1, summary := trimChars m.2.1,
             source := resolveSource m.2.2 }
    else none

/-- One well-formed article block of the model response: a `标题` label with
colon `tc` and body `t`, then a `摘要` label with colon `sc` and body `s`, then
a `来源` label with colon `rc` and body `r`.  Bodies may contain arbitrary
characters, newlines included. -/
structure Block where
  tc : Char
  sc : Char
  rc : Char
  t : List Char
  s : List Char
  r : List Char
deriving DecidableEq, Repr

/-- The text of one block, exactly as the output-format template lays it out. -/
def renderBlock (b : Block) : List Char :=
  '标' :: '题' :: b.tc :: (b.t ++ '摘' :: '要' :: b.sc :: (b.s ++ '来' :: '源' :: b.rc :: b.r))

/-- The concatenation of a sequence of blocks (separating blank lines, if any,
live at the end of the previous source body). -/
def renderBlocks (bs : List Block) : List Char :=
  (bs.map renderBlock).flatten

/-- Well-formedness of a block: the three colons are genuine colons, no body
contains the label that terminates its capture, every field is non-empty after
trimming, and the URL-extraction step leaves the trimmed source text unchanged
(it is either a bare URL or contains no URL at all). -/
def wfBlock (b : Block) : Bool :=
  isColon b.tc && isColon b.sc && isColon b.rc &&
  !hasLabel '摘' '要' b.t && !hasLabel '来' '源' b.s && !hasLabel '标' '题' b.r &&
  !(trimChars b.t).isEmpty && !(trimChars b.s).isEmpty && !(trimChars b.r).isEmpty &&
  (resolveSource b.r == trimChars b.r)

/-- Two concrete well-formed blocks used to instantiate `parse_wellformed_blocks`. -/
def demoBlocks : List Block :=
  [ { tc := '：', sc := '：', rc := '：',
      t := (" 数字经济宏观研究 ").data,
      s := ("一段简洁的摘要。\n").data,
      r := (" https://a.example/x?id=1 \n\n").data },
    { tc := ':', sc := ':', rc := ':',
      t := ("Second title\n").data,
      s := ("Second summary\n").data,
      r := ("no url in this source").data } ]

/-- Input whose first block has no 来源 label before the next 标题 label. -/
def mergedInput : List Char := ("标题：A摘要：B标题：C摘要：D来源：E").data

/-- The `GroundingSource` interface of `src/unnamed/part_000`. -/
structure GroundingSource where
  uri : String
  title : String
deriving DecidableEq, Repr

/-- One `Map.set` step of `new Map(sources.map(item => [item.uri, item]))`:
a JS `Map` keeps the original insertion position of an existing key but
overwrites its value, while a new key is appended at the end. -/
def mapInsert (m : List GroundingSource) (s : GroundingSource) : List GroundingSource :=
  if m.any fun x => x.uri == s.uri then
    m.map fun x => if x.uri == s.uri then s else x
  else m ++ [s]

/-- `Array.from(new Map(sources.map(item => [item.uri, item])).values())`. -/
def dedupSources (l : List GroundingSource) : List GroundingSource :=
  l.foldl mapInsert []

/-- The source-deduplication step of `fetchDigitalEconomyArticles`: drop the
entries with empty `uri` (the JS truthiness `.filter(source => source.uri)`),
then deduplicate by `uri` through the `Map`. -/
def dedupStep (l : List GroundingSource) : List GroundingSource :=
  dedupSources (l.filter fun s => !(s.uri == ("")))

/-- Reference description of the deduplication (the amended C3): one entry per
`uri`, in first-seen order of the uris, each entry being the LAST input entry
bearing that `uri`. -/
def dedupSpec : List GroundingSource → List GroundingSource
  | [] => []
  | s :: rest =>
    ((rest.filter fun x => x.uri == s.uri).getLastD s) ::
      dedupSpec (rest.filter fun x => !(x.uri == s.uri))
termination_by l => l.length
decreasing_by
  simp only [List.length_cons]
  exact Nat.lt_succ_of_le (List.length_filter_le _ _)

/-- C3 counterexample input: two entries sharing a uri, different titles. -/
def dupSources : List GroundingSource :=
  [{ uri := ("https://a.co/p"), title := ("first title") },
   { uri := ("https://a.co/p"), title := ("second title") }]

/-- Strip one trailing period: the `replace(/\.$/, '')` post-processing. -/
def stripTrailingDot (s : List Char) : List Char :=
  if s.getLast? == some '.' then s.dropLast else s

/-- An error raised by the underlying translation service call. -/
structure TranslateError where
  msg : List Char

/-- `translateKeywords`: on a successful service reply, trim it and drop one
trailing period; any failure is caught inside the function and becomes the
empty string (with only a console warning), never an exception. -/
def translateKeywords (outcome : Except TranslateError (List Char)) : List Char :=
  match outcome with
  | Except.ok t => stripTrailingDot (trimChars t)
  | Except.error _ => []

/-- The `FilterOptions` interface of `src/unnamed/part_000`. -/
structure FilterOptions where
  subTopic : List Char

/-- Header of the topic-focus instruction, up to the opening quote around the
keyword list. -/
def topicClauseHead : List Char :=
  ("4.  **主题聚焦 (Topic Focus):** 文章内容必须聚焦于以下一个或多个主题：“").data

/-- Tail of the topic-focus instruction after the keyword list. -/
def topicClauseTail : List Char := ("”。").data

/-- `combinedKeywords`: the original keywords, comma-joined with the
translated ones when translation produced anything. -/
def combinedKeywords (subTopic translated : List Char) : List Char :=
  if translated ≠ [] then subTopic ++ (", ").data ++ translated else subTopic

/-- The topic-focus instruction: built only when `subTopic` is non-empty,
otherwise the empty string. -/
def topicFocusInstruction (subTopic translated : List Char) : List Char :=
  if subTopic ≠ [] then
    topicClauseHead ++ combinedKeywords subTopic translated ++ topicClauseTail
  else []

/-- The prompt template before the spliced topic-focus instruction: task,
scope, content-type and language-balance clauses. -/
def promptPart1 : List Char :=
  ("\n**任务：**\n为我查找关于“数字经济”的最新、最权威的研究资料。\n\n**核心指令 (必须严格遵守):**\n\n1.  **视角层级 (Scope):** 结果必须是宏观层面的。只关注国家级政策、跨国研究或重要的全球/全国性行业趋势。**严格排除**任何只关注特定省、市或地区的内容。\n\n2.  **内容类型 (Content-Type):** 结果**必须以学术论文（特别是SCI收录的）和深度行业报告为主体**。新闻文章和政府出版物可以作为补充，但不是主要部分。\n\n3.  **语言均衡 (Language Balance):** 最终返回的结果中，中文文献和英文文献的数量**必须大致各占一半 (50/50)**。\n\n").data

/-- Between the topic-focus instruction and the start date. -/
def promptPart2 : List Char :=
  ("\n\n5.  **时间范围 (Timeframe):** 发布日期必须在 ").data

/-- Between the start date and the end date. -/
def promptPart3 : List Char := (" 和 ").data

/-- After the end date: sorting clause and the strict output format. -/
def promptPart4 : List Char :=
  (" 之间。\n\n6.  **排序标准 (Sorting):** 请根据权威性和信息量对所有结果进行综合排序，将最相关的、质量最高的结果放在最前面。\n\n**输出格式 (Output Format):**\n请严格按照以下格式为每篇文章或论文提供信息，不要添加任何介绍性文字、编号或总结。\n标题：[文章或论文的完整标题]\n摘要：[一段简洁的文章或论文摘要]\n来源：[文章或论文的直接网址]\n\n每个条目之间请用一个空行分隔。\n").data

/-- The prompt template literal of `fetchDigitalEconomyArticles`, as a
function of the spliced values. -/
def promptOf (subTopic translated startDate endDate : List Char) : List Char :=
  promptPart1 ++ topicFocusInstruction subTopic translated ++ promptPart2 ++
    startDate ++ promptPart3 ++ endDate ++ promptPart4

/-- An error raised by the main generative query call. -/
structure QueryError where
  msg : List Char

/-- The optional `web` part of a grounding chunk. -/
structure RawWeb where
  uri : Option String
  title : Option String

/-- One raw grounding chunk of the service response. -/
structure RawChunk where
  web : Option RawWeb

/-- The service response: raw text plus the optional grounding chunk list
(`response.candidates?.[0]?.groundingMetadata?.groundingChunks`). -/
structure GenResponse where
  text : List Char
  groundingChunks : Option (List RawChunk)

/-- The successful return value of the orchestrator. -/
structure FetchResult where
  articles : List Article
  sources : List GroundingSource
deriving DecidableEq

/-- `{ uri: chunk.web?.uri || '', title: chunk.web?.title || '' }`. -/
def chunkToSource (c : RawChunk) : GroundingSource :=
  { uri := ((c.web.bind RawWeb.uri).getD ("")),
    title := ((c.web.bind RawWeb.title).getD ("")) }

/-- Chunks defaulted to `[]`, mapped to uri/title pairs, and filtered by uri
truthiness (`.filter(source => source.uri)`). -/
def extractSources (resp : GenResponse) : List GroundingSource :=
  ((resp.groundingChunks.getD []).map chunkToSource).filter fun s => !(s.uri == (""))

/-- The single user-facing error message of the orchestrator. -/
def fetchFailMessage : List Char := ("获取文章失败。API 可能不可用或请求失败。").data

/-- The prompt actually sent: translation is attempted only when `subTopic` is
non-empty (an `Except.error` outcome models any failure of that call). -/
def fetchPrompt (startDate endDate : List Char) (filters : FilterOptions)
    (translationOutcome : Except TranslateError (List Char)) : List Char :=
  promptOf filters.subTopic
    (if filters.subTopic ≠ [] then translateKeywords translationOutcome else [])
    startDate endDate

/-- `fetchDigitalEconomyArticles`: build the prompt (translation failure is
absorbed into an empty translated-keyword set), run the main query, parse the
text, deduplicate the grounding sources.  The date-window computation
(`new Date`, `toISOString`) is environmental and enters as the two date
strings; the two service calls enter as the translation outcome and the query
oracle.  The surrounding `try/catch` re-raises every query failure as the one
generic message; everything after the query (parsing, extraction,
deduplication) is total and cannot throw. -/
def fetchDigitalEconomyArticles
    (startDate endDate : List Char) (filters : FilterOptions)
    (translationOutcome : Except TranslateError (List Char))
    (runQuery : List Char → Except QueryError GenResponse) :
    Except (List Char) FetchResult :=
  match runQuery (fetchPrompt startDate endDate filters translationOutcome) with
  | Except.error _ => Except.error fetchFailMessage
  | Except.ok resp =>
      Except.ok { articles := parseArticleResponse resp.text,
                  sources := dedupSources (extractSources resp) }

/-- The four characters 主题聚焦 that occur in the prompt exactly when the
topic-focus clause is present. -/
def topicMarker : List Char := ("主题聚焦").data

theorem stripLabel2_length {l0 l1 : Char} :
    ∀ {s r : List Char}, stripLabel2 l0 l1 s = some r → r.length + 3 = s.length := by
  intro s r h
  match s with
  | [] => simp [stripLabel2] at h
  | [a] => simp [stripLabel2] at h
  | [a, b] => simp [stripLabel2] at h
  | a :: b :: c :: rest =>
    by_cases hc : (a == l0 && b == l1 && isColon c) = true
    · simp only [stripLabel2, if_pos hc] at h
      cases h
      simp only [List.length_cons]
    · simp only [stripLabel2, if_neg hc] at h
      exact absurd h (by simp)

theorem splitAtLabel_length_lt (l0 l1 : Char) :
    ∀ (s : List Char) (p : List Char × List Char),
      splitAtLabel l0 l1 s = some p → p.2.length < s.length := by
  intro s
  induction s with
  | nil => intro p h; simp [splitAtLabel] at h
  | cons c cs ih =>
    intro p h
    unfold splitAtLabel at h
    cases hs : stripLabel2 l0 l1 (c :: cs) with
    | some rest =>
      rw [hs] at h
      cases h
      have := stripLabel2_length hs
      simp at this ⊢
      omega
    | none =>
      rw [hs] at h
      cases hr : splitAtLabel l0 l1 cs with
      | some q =>
        rw [hr] at h
        cases h
        have := ih q hr
        simp
        omega
      | none => rw [hr] at h; cases h

theorem takeUntilLabel_length_le (l0 l1 : Char) :
    ∀ s : List Char, (takeUntilLabel l0 l1 s).2.length ≤ s.length := by
  intro s
  induction s with
  | nil => simp [takeUntilLabel]
  | cons c cs ih =>
    unfold takeUntilLabel
    split
    · simp
    · simpa using Nat.le_succ_of_le ih

theorem scanArticlesGo_fuel :
    ∀ (fuel1 fuel2 : Nat) (text : List Char),
      text.length < fuel1 → text.length < fuel2 →
      scanArticlesGo fuel1 text = scanArticlesGo fuel2 text := by
  intro fuel1
  induction fuel1 with
  | zero => intro fuel2 text h1 h2; omega
  | succ f ih =>
    intro fuel2 text h1 h2
    cases fuel2 with
    | zero => omega
    | succ g =>
      cases e1 : splitAtLabel '标' '题' text with
      | none => simp [scanArticlesGo, e1]
      | some p1 =>
        cases e2 : splitAtLabel '摘' '要' p1.2 with
        | none => simp [scanArticlesGo, e1, e2]
        | some p2 =>
          cases e3 : splitAtLabel '来' '源' p2.2 with
          | none => simp [scanArticlesGo, e1, e2, e3]
          | some p3 =>
            have hl1 := splitAtLabel_length_lt '标' '题' text p1 e1
            have hl2 := splitAtLabel_length_lt '摘' '要' p1.2 p2 e2
            have hl3 := splitAtLabel_length_lt '来' '源' p2.2 p3 e3
            have hl4 := takeUntilLabel_length_le '标' '题' p3.2
            simp only [scanArticlesGo, e1, e2, e3]
            rw [ih g (takeUntilLabel '标' '题' p3.2).2 (by omega) (by omega)]

theorem scanArticles_eq_cons {text : List Char} {p1 p2 p3 : List Char × List Char}
    (h1 : splitAtLabel '标' '题' text = some p1)
    (h2 : splitAtLabel '摘' '要' p1.2 = some p2)
    (h3 : splitAtLabel '来' '源' p2.2 = some p3) :
    scanArticles text =
      (p2.1, p3.1, (takeUntilLabel '标' '题' p3.2).1) ::
        scanArticles (takeUntilLabel '标' '题' p3.2).2 := by
  have hl1 := splitAtLabel_length_lt '标' '题' text p1 h1
  have hl2 := splitAtLabel_length_lt '摘' '要' p1.2 p2 h2
  have hl3 := splitAtLabel_length_lt '来' '源' p2.2 p3 h3
  have hl4 := takeUntilLabel_length_le '标' '题' p3.2
  unfold scanArticles
  conv_lhs => simp only [scanArticlesGo, h1, h2, h3]
  congr 1
  exact scanArticlesGo_fuel text.length ((takeUntilLabel '标' '题' p3.2).2.length + 1)
    (takeUntilLabel '标' '题' p3.2).2 (by omega) (by omega)

theorem scanArticles_nil_title {text : List Char}
    (h1 : splitAtLabel '标' '题' text = none) : scanArticles text = [] := by
  unfold scanArticles
  simp [scanArticlesGo, h1]

theorem scanArticles_nil_summary {text : List Char} {p1 : List Char × List Char}
    (h1 : splitAtLabel '标' '题' text = some p1)
    (h2 : splitAtLabel '摘' '要' p1.2 = none) : scanArticles text = [] := by
  unfold scanArticles
  simp [scanArticlesGo, h1, h2]

theorem scanArticles_nil_source {text : List Char} {p1 p2 : List Char × List Char}
    (h1 : splitAtLabel '标' '题' text = some p1)
    (h2 : splitAtLabel '摘' '要' p1.2 = some p2)
    (h3 : splitAtLabel '来' '源' p2.2 = none) : scanArticles text = [] := by
  unfold scanArticles
  simp [scanArticlesGo, h1, h2, h3]

/-- Inversion for a successful label test at one position. -/
theorem stripLabel2_some_eq {l0 l1 : Char} :
    ∀ {s r : List Char}, stripLabel2 l0 l1 s = some r →
      ∃ c, isColon c = true ∧ s = l0 :: l1 :: c :: r := by
  intro s r h
  match s with
  | [] => simp [stripLabel2] at h
  | [a] => simp [stripLabel2] at h
  | [a, b] => simp [stripLabel2] at h
  | a :: b :: c :: rest =>
    by_cases hx : (a == l0 && b == l1 && isColon c) = true
    · simp only [stripLabel2, if_pos hx] at h
      cases h
      simp only [Bool.and_eq_true, beq_iff_eq] at hx
      exact ⟨c, hx.2, by rw [hx.1.1, hx.1.2]⟩
    · simp only [stripLabel2, if_neg hx] at h
      exact absurd h (by simp)

/-- Inversion for a successful first-occurrence split. -/
theorem splitAtLabel_some_eq {l0 l1 : Char} :
    ∀ (s : List Char) (p : List Char × List Char),
      splitAtLabel l0 l1 s = some p →
      ∃ c, isColon c = true ∧ s = p.1 ++ l0 :: l1 :: c :: p.2 := by
  intro s
  induction s with
  | nil => intro p h; simp [splitAtLabel] at h
  | cons a s ih =>
    intro p h
    unfold splitAtLabel at h
    cases hstrip : stripLabel2 l0 l1 (a :: s) with
    | some rest =>
      rw [hstrip] at h
      cases h
      obtain ⟨c, hc, he⟩ := stripLabel2_some_eq hstrip
      exact ⟨c, hc, by simpa using he⟩
    | none =>
      rw [hstrip] at h
      cases hrec : splitAtLabel l0 l1 s with
      | some q =>
        rw [hrec] at h
        cases h
        obtain ⟨c, hc, he⟩ := ih q hrec
        exact ⟨c, hc, by simp [he]⟩
      | none => rw [hrec] at h; cases h

/-- A label cannot occur at the head of `a :: s` extended on the right by the
label itself: the two label characters differ, and neither is a colon, so no
occurrence can straddle the junction. -/
theorem stripLabel2_none_clean {l0 l1 : Char} (hne : l0 ≠ l1) (hc0 : isColon l0 = false)
    (a : Char) (s r0 : List Char) (h : hasLabel l0 l1 (a :: s) = false) :
    stripLabel2 l0 l1 (a :: (s ++ l0 :: l1 :: r0)) = none := by
  match s with
  | [] =>
    have hl : (l0 == l1) = false := beq_eq_false_iff_ne.mpr hne
    simp [stripLabel2, hl]
  | [b] =>
    simp [stripLabel2, hc0]
  | b :: d :: s2 =>
    have h1 : (stripLabel2 l0 l1 (a :: b :: d :: s2)).isSome = false := by
      rw [hasLabel] at h
      exact (Bool.or_eq_false_iff.mp h).1
    have hcond : ¬(a == l0 && b == l1 && isColon d) = true := by
      intro hx
      simp only [stripLabel2, if_pos hx] at h1
      simp at h1
    simp only [List.cons_append]
    simp [stripLabel2, hcond]

/-- Splitting a clean body followed by its terminating label returns the body
and the remainder after the label colon. -/
theorem splitAtLabel_clean_append {l0 l1 : Char} (hne : l0 ≠ l1) (hc0 : isColon l0 = false)
    {c : Char} (hc : isColon c = true) (s r : List Char)
    (hs : hasLabel l0 l1 s = false) :
    splitAtLabel l0 l1 (s ++ l0 :: l1 :: c :: r) = some (s, r) := by
  induction s with
  | nil => simp [splitAtLabel, stripLabel2, hc]
  | cons a s ih =>
    have h2 : hasLabel l0 l1 s = false := by
      rw [hasLabel] at hs
      exact (Bool.or_eq_false_iff.mp hs).2
    have hstrip := stripLabel2_none_clean hne hc0 a s (c :: r) hs
    simp only [List.cons_append] at hstrip ⊢
    rw [splitAtLabel.eq_2]
    rw [hstrip, ih h2]

/-- Scanning a clean body followed by the lookahead label stops exactly at the
label. -/
theorem takeUntilLabel_clean_append {l0 l1 : Char} (hne : l0 ≠ l1) (hc0 : isColon l0 = false)
    {c : Char} (hc : isColon c = true) (s r : List Char)
    (hs : hasLabel l0 l1 s = false) :
    takeUntilLabel l0 l1 (s ++ l0 :: l1 :: c :: r) = (s, l0 :: l1 :: c :: r) := by
  induction s with
  | nil => simp [takeUntilLabel, stripLabel2, hc]
  | cons a s ih =>
    have h2 : hasLabel l0 l1 s = false := by
      rw [hasLabel] at hs
      exact (Bool.or_eq_false_iff.mp hs).2
    have hstrip := stripLabel2_none_clean hne hc0 a s (c :: r) hs
    simp only [List.cons_append] at hstrip ⊢
    rw [takeUntilLabel.eq_2]
    simp [hstrip, ih h2]

/-- Scanning a body with no occurrence of the label consumes everything. -/
theorem takeUntilLabel_no_label {l0 l1 : Char} (s : List Char)
    (hs : hasLabel l0 l1 s = false) :
    takeUntilLabel l0 l1 s = (s, []) := by
  induction s with
  | nil => simp [takeUntilLabel]
  | cons a s ih =>
    rw [hasLabel] at hs
    obtain ⟨hh1, hh2⟩ := Bool.or_eq_false_iff.mp hs
    rw [takeUntilLabel.eq_2]
    simp [hh1, ih hh2]

/-- If the label never occurs, the split fails. -/
theorem splitAtLabel_eq_none {l0 l1 : Char} (s : List Char)
    (hs : hasLabel l0 l1 s = false) :
    splitAtLabel l0 l1 s = none := by
  induction s with
  | nil => simp [splitAtLabel]
  | cons a s ih =>
    rw [hasLabel] at hs
    obtain ⟨hh1, hh2⟩ := Bool.or_eq_false_iff.mp hs
    have hh1' : stripLabel2 l0 l1 (a :: s) = none := by
      cases ho : stripLabel2 l0 l1 (a :: s) with
      | none => rfl
      | some v => rw [ho] at hh1; simp at hh1
    rw [splitAtLabel.eq_2]
    rw [hh1', ih hh2]

/-- Absence of a label passes to the right part of an append. -/
theorem hasLabel_append_right {l0 l1 : Char} (u v : List Char)
    (h : hasLabel l0 l1 (u ++ v) = false) : hasLabel l0 l1 v = false := by
  induction u with
  | nil => simpa using h
  | cons a u ih =>
    rw [List.cons_append, hasLabel] at h
    exact ih (Bool.or_eq_false_iff.mp h).2

theorem scanArticles_renderBlocks :
    ∀ bs : List Block, (∀ b ∈ bs, wfBlock b = true) →
      scanArticles (renderBlocks bs) = bs.map fun b => (b.t, b.s, b.r) := by
  intro bs
  induction bs with
  | nil =>
    intro _
    have : splitAtLabel '标' '题' ([] : List Char) = none := by simp [splitAtLabel]
    simpa [renderBlocks] using scanArticles_nil_title this
  | cons b rest ih =>
    intro h
    have hb := h b (List.mem_cons_self b rest)
    simp only [wfBlock, Bool.and_eq_true, Bool.not_eq_true'] at hb
    obtain ⟨⟨⟨⟨⟨⟨⟨⟨⟨htc, hsc⟩, hrc⟩, hnt⟩, hns⟩, hnr⟩, het⟩, hes⟩, her⟩, hres⟩ := hb
    have htext : renderBlocks (b :: rest) = renderBlock b ++ renderBlocks rest := by
      simp [renderBlocks]
    have h1 : splitAtLabel '标' '题' (renderBlocks (b :: rest)) =
        some ([], b.t ++ '摘' :: '要' :: b.sc :: (b.s ++ '来' :: '源' :: b.rc :: (b.r ++ renderBlocks rest))) := by
      rw [htext]
      simp only [renderBlock, List.cons_append, List.append_assoc]
      simp [splitAtLabel, stripLabel2, htc]
    have h2 : splitAtLabel '摘' '要'
        (b.t ++ '摘' :: '要' :: b.sc :: (b.s ++ '来' :: '源' :: b.rc :: (b.r ++ renderBlocks rest))) =
        some (b.t, b.s ++ '来' :: '源' :: b.rc :: (b.r ++ renderBlocks rest)) :=
      splitAtLabel_clean_append (by decide) (by decide) hsc _ _ hnt
    have h3 : splitAtLabel '来' '源'
        (b.s ++ '来' :: '源' :: b.rc :: (b.r ++ renderBlocks rest)) =
        some (b.s, b.r ++ renderBlocks rest) :=
      splitAtLabel_clean_append (by decide) (by decide) hrc _ _ hns
    have hstep := scanArticles_eq_cons h1 h2 h3
    cases rest with
    | nil =>
      have htu : takeUntilLabel '标' '题' (b.r ++ renderBlocks ([] : List Block)) = (b.r, []) := by
        have : renderBlocks ([] : List Block) = [] := by simp [renderBlocks]
        rw [this, List.append_nil]
        exact takeUntilLabel_no_label b.r hnr
      rw [hstep, htu]
      have : splitAtLabel '标' '题' ([] : List Char) = none := by simp [splitAtLabel]
      simp [scanArticles_nil_title this]
    | cons b2 rest2 =>
      have hb2 := h b2 (by simp)
      have htc2 : isColon b2.tc = true := by
        simp only [wfBlock, Bool.and_eq_true] at hb2
        exact hb2.1.1.1.1.1.1.1.1.1
      have hren : renderBlocks (b2 :: rest2) =
          '标' :: '题' :: b2.tc ::
            (b2.t ++ '摘' :: '要' :: b2.sc :: (b2.s ++ '来' :: '源' :: b2.rc :: b2.r) ++ renderBlocks rest2) := by
        simp [renderBlocks, renderBlock]
      have htu : takeUntilLabel '标' '题' (b.r ++ renderBlocks (b2 :: rest2)) =
          (b.r, renderBlocks (b2 :: rest2)) := by
        conv_lhs => rw [hren]
        rw [takeUntilLabel_clean_append (by decide) (by decide) htc2 _ _ hnr]
        rw [hren]
      rw [hstep, htu]
      have := ih (fun x hx => h x (List.mem_cons_of_mem b hx))
      simp [this]

theorem filterMap_eq_map_of_mem {α β : Type} {l : List α} {f : α → Option β} {g : α → β}
    (h : ∀ a ∈ l, f a = some (g a)) : l.filterMap f = l.map g := by
  induction l with
  | nil => rfl
  | cons a l ih =>
    rw [List.filterMap_cons, h a (List.mem_cons_self a l), List.map_cons,
      ih fun x hx => h x (List.mem_cons_of_mem a hx)]

/-- C1: for input text consisting of N well-formed sequential article blocks
(`标题`/`摘要`/`来源` labels with either colon glyph, field bodies possibly
containing newlines), `parseArticleResponse` returns exactly N articles, in
block order, whose title, summary and source equal the whitespace-trimmed
captured field bodies. -/
theorem parse_wellformed_blocks (bs : List Block) (h : ∀ b ∈ bs, wfBlock b = true) :
    parseArticleResponse (renderBlocks bs) =
      bs.map fun b =>
        { title := trimChars b.t, summary := trimChars b.s, source := trimChars b.r } := by
  unfold parseArticleResponse
  rw [scanArticles_renderBlocks bs h, List.filterMap_map]
  apply filterMap_eq_map_of_mem
  intro b hb
  have hwf := h b hb
  simp only [wfBlock, Bool.and_eq_true, Bool.not_eq_true', beq_iff_eq] at hwf
  obtain ⟨⟨⟨⟨⟨⟨⟨⟨⟨htc, hsc⟩, hrc⟩, hnt⟩, hns⟩, hnr⟩, het⟩, hes⟩, her⟩, hres⟩ := hwf
  have ht : trimChars b.t ≠ [] := by intro he; rw [he] at het; simp at het
  have hs2 : trimChars b.s ≠ [] := by intro he; rw [he] at hes; simp at hes
  have hr2 : trimChars b.r ≠ [] := by intro he; rw [he] at her; simp at her
  simp only [Function.comp_apply]
  simp [hres, ht, hs2, hr2]

/-- C1 witness: the theorem applied to two concrete blocks. -/
theorem parse_wellformed_blocks_witness :
    parseArticleResponse (renderBlocks demoBlocks) =
      demoBlocks.map fun b =>
        { title := trimChars b.t, summary := trimChars b.s, source := trimChars b.r } :=
  parse_wellformed_blocks demoBlocks (by decide)

/-- C2 amended: no partially-filled article ever appears — every emitted
article has non-empty title, summary and source. -/
theorem parse_no_partial_articles (text : List Char) (a : Article)
    (ha : a ∈ parseArticleResponse text) :
    a.title ≠ [] ∧ a.summary ≠ [] ∧ a.source ≠ [] := by
  unfold parseArticleResponse at ha
  obtain ⟨m, hm, hf⟩ := List.mem_filterMap.mp ha
  split at hf
  next hcond => cases hf; exact hcond
  next => cases hf

/-- C2 witness: the amended theorem applied to one concrete parse. -/
theorem parse_no_partial_articles_witness :
    ("T").data ≠ [] ∧ ("S").data ≠ [] ∧ ("https://e.x/1").data ≠ [] :=
  parse_no_partial_articles (("标题:T摘要:S来源:https://e.x/1").data)
    { title := ("T").data, summary := ("S").data, source := ("https://e.x/1").data }
    (by decide)

/-- C2 counterexample: the claim says the 来源-less first block is excluded
from the output, which would leave exactly the well-formed second block
⟨C, D, E⟩; in fact the single regex match starts at the first block's 标题 and
its lazy summary capture swallows the whole second block. -/
theorem parse_missing_field_not_excluded :
    parseArticleResponse mergedInput =
      [{ title := ("A").data, summary := ("B标题：C摘要：D").data, source := ("E").data }] ∧
    parseArticleResponse mergedInput ≠
      [{ title := ("C").data, summary := ("D").data, source := ("E").data }] := by
  constructor
  · decide
  · decide

/-- C5: the parser is total and an input with zero matches yields the empty
list — never an error: whenever the match scan is empty the parse is empty,
and the scan is empty in particular whenever one of the three labels never
occurs in the input (arbitrarily malformed text included). -/
theorem parse_empty_on_missing_labels :
    (∀ text, scanArticles text = [] → parseArticleResponse text = []) ∧
    ∀ text, (hasLabel '标' '题' text = false ∨ hasLabel '摘' '要' text = false ∨
        hasLabel '来' '源' text = false) →
      parseArticleResponse text = [] := by
  have hscan : ∀ text, scanArticles text = [] → parseArticleResponse text = [] := by
    intro text h
    rw [parseArticleResponse, h]
    rfl
  refine ⟨hscan, ?_⟩
  intro text h
  rcases h with h | h | h
  · rw [parseArticleResponse, scanArticles_nil_title (splitAtLabel_eq_none text h)]
    rfl
  · cases e1 : splitAtLabel '标' '题' text with
    | none => rw [parseArticleResponse, scanArticles_nil_title e1]; rfl
    | some p1 =>
      obtain ⟨c, hc, he⟩ := splitAtLabel_some_eq text p1 e1
      have hsplit : text = (p1.1 ++ ['标', '题', c]) ++ p1.2 := by simp [he]
      rw [hsplit] at h
      have h2 : hasLabel '摘' '要' p1.2 = false := hasLabel_append_right _ _ h
      rw [parseArticleResponse,
        scanArticles_nil_summary e1 (splitAtLabel_eq_none _ h2)]
      rfl
  · cases e1 : splitAtLabel '标' '题' text with
    | none => rw [parseArticleResponse, scanArticles_nil_title e1]; rfl
    | some p1 =>
      obtain ⟨c, hc, he⟩ := splitAtLabel_some_eq text p1 e1
      have hsplit : text = (p1.1 ++ ['标', '题', c]) ++ p1.2 := by simp [he]
      rw [hsplit] at h
      have h2 : hasLabel '来' '源' p1.2 = false := hasLabel_append_right _ _ h
      cases e2 : splitAtLabel '摘' '要' p1.2 with
      | none => rw [parseArticleResponse, scanArticles_nil_summary e1 e2]; rfl
      | some p2 =>
        obtain ⟨c2, hc2, he2⟩ := splitAtLabel_some_eq p1.2 p2 e2
        have hsplit2 : p1.2 = (p2.1 ++ ['摘', '要', c2]) ++ p2.2 := by simp [he2]
        rw [hsplit2] at h2
        have h3 : hasLabel '来' '源' p2.2 = false := hasLabel_append_right _ _ h2
        rw [parseArticleResponse,
          scanArticles_nil_source e1 e2 (splitAtLabel_eq_none _ h3)]
        rfl

/-- C5 witness: malformed input with no labels parses to the empty list. -/
theorem parse_empty_on_missing_labels_witness :
    parseArticleResponse (("Here is some prose with no labels at all.").data) = [] :=
  parse_empty_on_missing_labels.2 (("Here is some prose with no labels at all.").data)
    (Or.inl (by decide))

/-- C4: the source field is replaced by the first URL-pattern match inside the
trimmed capture when one exists, and kept as the trimmed raw text otherwise;
the spec's concrete example extracts exactly the URL, truncated before `)`. -/
theorem source_url_extraction :
    (∀ raw u, findUrl (trimChars raw) = some u → resolveSource raw = u) ∧
    (∀ raw, findUrl (trimChars raw) = none → resolveSource raw = trimChars raw) ∧
    parseArticleResponse
        (("标题：T\n摘要：S\n来源：详见: https://example.com/paper?x=1) 更多文字").data) =
      [{ title := ("T").data, summary := ("S").data,
         source := ("https://example.com/paper?x=1").data }] ∧
    findUrl (("详见: https://example.com/paper?x=1) 更多文字").data) =
      some (("https://example.com/paper?x=1").data) := by
  refine ⟨?_, ?_, ?_, ?_⟩
  · intro raw u h
    unfold resolveSource
    rw [h]
  · intro raw h
    unfold resolveSource
    rw [h]
  · decide
  · decide

/-- C4 witness: the replacement clause applied to the spec's example text. -/
theorem source_url_extraction_witness :
    resolveSource ((" 详见: https://example.com/paper?x=1) 更多文字 ").data) =
      ("https://example.com/paper?x=1").data :=
  source_url_extraction.1 _ _ (by decide)

/-- Inversion for a URL-pattern match at one position: the result is the
scheme followed by a non-empty run of URL characters. -/
theorem matchUrlAt_some_spec {s u : List Char} (h : matchUrlAt s = some u) :
    ∃ r, (u = httpsScheme ++ r ∨ u = httpScheme ++ r) ∧ r ≠ [] ∧
      ∀ c ∈ r, isUrlChar c = true := by
  unfold matchUrlAt at h
  split at h
  next rest heq =>
    split at h
    next => cases h
    next hne =>
      cases h
      refine ⟨rest.takeWhile isUrlChar, Or.inl rfl, ?_, ?_⟩
      · intro hx; rw [hx] at hne; simp at hne
      · intro c hc; exact List.mem_takeWhile_imp hc
  next heq =>
    split at h
    next rest heq2 =>
      split at h
      next => cases h
      next hne =>
        cases h
        refine ⟨rest.takeWhile isUrlChar, Or.inr rfl, ?_, ?_⟩
        · intro hx; rw [hx] at hne; simp at hne
        · intro c hc; exact List.mem_takeWhile_imp hc
    next => cases h

/-- Inversion for the leftmost URL-pattern match in a string. -/
theorem findUrl_some_spec :
    ∀ {s u : List Char}, findUrl s = some u →
      ∃ r, (u = httpsScheme ++ r ∨ u = httpScheme ++ r) ∧ r ≠ [] ∧
        ∀ c ∈ r, isUrlChar c = true := by
  intro s
  induction s with
  | nil => intro u h; simp [findUrl] at h
  | cons a s ih =>
    intro u h
    unfold findUrl at h
    cases e : matchUrlAt (a :: s) with
    | some v =>
      rw [e] at h
      cases h
      exact matchUrlAt_some_spec e
    | none => rw [e] at h; exact ih h

/-- C10: every extracted URL starts with the lowercase scheme `https://` or
`http://` and consists only of characters outside the excluded class
(whitespace, `"`, `'`, `)`, `<`, `>`); a URL body is truncated at `)`, and an
uppercase scheme is not recognized, leaving the trimmed raw source text. -/
theorem url_extraction_invariant :
    (∀ s u, findUrl s = some u →
      (∃ r, (u = httpsScheme ++ r ∨ u = httpScheme ++ r) ∧ r ≠ []) ∧
        ∀ c ∈ u, isUrlChar c = true) ∧
    findUrl (("https://a.b/c)d").data) = some (("https://a.b/c").data) ∧
    resolveSource (("详见 HTTPS://EXAMPLE.COM").data) = ("详见 HTTPS://EXAMPLE.COM").data := by
  refine ⟨?_, by decide, by decide⟩
  intro s u h
  obtain ⟨r, hshape, hne, hchars⟩ := findUrl_some_spec h
  refine ⟨⟨r, hshape, hne⟩, ?_⟩
  have hsch1 : ∀ x ∈ httpsScheme, isUrlChar x = true := by decide
  have hsch2 : ∀ x ∈ httpScheme, isUrlChar x = true := by decide
  intro c hc
  rcases hshape with rfl | rfl
  · rcases List.mem_append.mp hc with hc2 | hc2
    · exact hsch1 c hc2
    · exact hchars c hc2
  · rcases List.mem_append.mp hc with hc2 | hc2
    · exact hsch2 c hc2
    · exact hchars c hc2

/-- C10 witness: the invariant applied to one concrete extraction. -/
theorem url_extraction_invariant_witness :
    (∃ r, (("https://a.b/c").data = httpsScheme ++ r ∨
           ("https://a.b/c").data = httpScheme ++ r) ∧ r ≠ []) ∧
      ∀ c ∈ (("https://a.b/c").data), isUrlChar c = true :=
  url_extraction_invariant.1 (("见 https://a.b/c)d 文").data) (("https://a.b/c").data)
    (by decide)

theorem any_congr_mem {α : Type} {l : List α} {p q : α → Bool}
    (h : ∀ a ∈ l, p a = q a) : l.any p = l.any q := by
  induction l with
  | nil => rfl
  | cons a l ih =>
    simp only [List.any_cons, h a (List.mem_cons_self a l)]
    rw [ih fun x hx => h x (List.mem_cons_of_mem a hx)]

theorem mapInsert_keys {acc : List GroundingSource} {x : GroundingSource}
    (y : String) :
    ((acc.map fun a => if a.uri == x.uri then x else a).any fun a => a.uri == y) =
      (acc.any fun a => a.uri == y) := by
  rw [List.any_map]
  apply any_congr_mem
  intro a _
  by_cases hax : (a.uri == x.uri) = true
  · have he : a.uri = x.uri := eq_of_beq hax
    simp [Function.comp, hax, he]
  · have hax2 : (a.uri == x.uri) = false := by
      cases hh : (a.uri == x.uri) with
      | true => exact absurd hh hax
      | false => rfl
    simp [Function.comp, hax2]

/-- The `Map`-based fold, started from any accumulator: existing keys of the
accumulator get their value overwritten by the last matching entry, new keys
are collected by `dedupSpec`. -/
theorem foldl_mapInsert_eq :
    ∀ (l acc : List GroundingSource),
      l.foldl mapInsert acc =
        (acc.map fun a => (l.filter fun x => x.uri == a.uri).getLastD a) ++
          dedupSpec (l.filter fun x => !(acc.any fun a => a.uri == x.uri)) := by
  intro l
  induction l with
  | nil =>
    intro acc
    simp only [List.foldl_nil, List.filter_nil, List.getLastD_nil, dedupSpec,
      List.append_nil]
    exact (List.map_id _).symm
  | cons x t ih =>
    intro acc
    rw [List.foldl_cons, ih (mapInsert acc x)]
    by_cases hmem : (acc.any fun a => a.uri == x.uri) = true
    · have hins : mapInsert acc x = acc.map fun a => if a.uri == x.uri then x else a := by
        simp [mapInsert, hmem]
      rw [hins, List.map_map]
      congr 1
      · apply List.map_congr_left
        intro a _
        by_cases hax : (a.uri == x.uri) = true
        · have he : a.uri = x.uri := eq_of_beq hax
          have hxa : (x.uri == a.uri) = true := by rw [he]; exact beq_self_eq_true _
          have hfc : ((x :: t).filter fun y => y.uri == a.uri) =
              x :: t.filter fun y => y.uri == a.uri := by
            rw [List.filter_cons, if_pos hxa]
          simp only [Function.comp_apply]
          rw [if_pos hax, hfc, List.getLastD_cons]
          simp only [he]
        · have hxa : (x.uri == a.uri) = false := by
            cases hh : (x.uri == a.uri) with
            | true =>
              exact absurd (by rw [eq_of_beq hh]; exact beq_self_eq_true _) hax
            | false => rfl
          have hfc : ((x :: t).filter fun y => y.uri == a.uri) =
              t.filter fun y => y.uri == a.uri := by
            rw [List.filter_cons, if_neg (by simp [hxa])]
          simp only [Function.comp_apply]
          rw [if_neg hax, hfc]
      · congr 1
        rw [List.filter_cons, if_neg (by simp [hmem])]
        apply List.filter_congr
        intro y _
        rw [mapInsert_keys y.uri]
    · have hacc : (acc.any fun a => a.uri == x.uri) = false := Bool.eq_false_iff.mpr hmem
      have hins : mapInsert acc x = acc ++ [x] := by simp [mapInsert, hmem]
      rw [hins]
      have h1 : ∀ a ∈ acc, (x.uri == a.uri) = false := by
        intro a ha
        have h2 := (List.any_eq_false.mp hacc) a ha
        cases hh : (x.uri == a.uri) with
        | true =>
          exact absurd (by rw [eq_of_beq hh]; exact beq_self_eq_true _) h2
        | false => rfl
      have hhead : (acc.map fun a => ((x :: t).filter fun y => y.uri == a.uri).getLastD a) =
          acc.map fun a => (t.filter fun y => y.uri == a.uri).getLastD a := by
        apply List.map_congr_left
        intro a ha
        rw [List.filter_cons, if_neg (by simp [h1 a ha])]
      have hcons : ((x :: t).filter fun y => !(acc.any fun a => a.uri == y.uri)) =
          x :: t.filter fun y => !(acc.any fun a => a.uri == y.uri) := by
        rw [List.filter_cons, if_pos (by simp [hacc])]
      have ha2 : ((t.filter fun y => !(acc.any fun a => a.uri == y.uri)).filter
            fun y => y.uri == x.uri) = t.filter fun y => y.uri == x.uri := by
        rw [List.filter_filter]
        apply List.filter_congr
        intro y _
        by_cases hyx : (y.uri == x.uri) = true
        · have he : y.uri = x.uri := eq_of_beq hyx
          simp [hyx, he, hacc]
        · have hyx2 : (y.uri == x.uri) = false := Bool.eq_false_iff.mpr hyx
          simp [hyx2]
      have hb2 : (t.filter fun y => !((acc ++ [x]).any fun a => a.uri == y.uri)) =
          (t.filter fun y => !(acc.any fun a => a.uri == y.uri)).filter
            fun y => !(y.uri == x.uri) := by
        rw [List.filter_filter]
        apply List.filter_congr
        intro y _
        simp only [List.any_append, List.any_cons, List.any_nil, Bool.or_false,
          Bool.not_or]
        rw [Bool.and_comm]
        rw [show (x.uri == y.uri) = (y.uri == x.uri) from Bool.beq_comm]
      rw [hhead, hcons]
      simp only [dedupSpec]
      rw [ha2, hb2, List.map_append]
      simp [List.append_assoc]

/-- The `Map`-based deduplication equals its reference description. -/
theorem dedupSources_eq_dedupSpec (l : List GroundingSource) :
    dedupSources l = dedupSpec l := by
  unfold dedupSources
  rw [foldl_mapInsert_eq l []]
  simp

/-- C3 counterexample: on a duplicated uri the deduplication keeps the LAST
occurrence's title (JS `Map.set` overwrites the value of an existing key), not
the first occurrence's title as the claim states. -/
theorem dedup_keeps_last_title :
    dedupStep dupSources =
      [{ uri := ("https://a.co/p"), title := ("second title") }] ∧
    dedupStep dupSources ≠
      [{ uri := ("https://a.co/p"), title := ("first title") }] := by
  constructor
  · decide
  · decide

/-- C3 amended: the deduplication step drops empty uris and returns one entry
per uri in first-seen uri order, each entry being the last input entry bearing
that uri (so a duplicated uri keeps the last occurrence's title). -/
theorem dedupStep_eq_dedupSpec (l : List GroundingSource) :
    dedupStep l = dedupSpec (l.filter fun s => !(s.uri == (""))) := by
  unfold dedupStep
  exact dedupSources_eq_dedupSpec _

theorem dedupSpec_eq_self :
    ∀ l : List GroundingSource, (l.map GroundingSource.uri).Nodup → dedupSpec l = l := by
  intro l
  induction l with
  | nil => intro _; simp [dedupSpec]
  | cons s rest ih =>
    intro h
    rw [List.map_cons, List.nodup_cons] at h
    obtain ⟨hnotin, hnd⟩ := h
    have h1 : rest.filter (fun x => x.uri == s.uri) = [] := by
      rw [List.filter_eq_nil_iff]
      intro a ha hba
      exact hnotin (by rw [← eq_of_beq hba]; exact List.mem_map_of_mem _ ha)
    have h2 : rest.filter (fun x => !(x.uri == s.uri)) = rest := by
      rw [List.filter_eq_self]
      intro a ha
      have hne2 : (a.uri == s.uri) = false := by
        cases hb : (a.uri == s.uri) with
        | true =>
          exact absurd (by rw [← eq_of_beq hb]; exact List.mem_map_of_mem _ ha) hnotin
        | false => rfl
      simp [hne2]
    simp only [dedupSpec]
    rw [h1, h2, List.getLastD_nil, ih hnd]

/-- C9: the deduplication step is the identity on input with pairwise-distinct
non-empty uris. -/
theorem dedup_idempotent_on_unique (l : List GroundingSource)
    (hnd : (l.map GroundingSource.uri).Nodup)
    (hne : ∀ s ∈ l, s.uri ≠ ("")) :
    dedupStep l = l := by
  have hfilter : l.filter (fun s => !(s.uri == (""))) = l := by
    rw [List.filter_eq_self]
    intro a ha
    have hb2 : (a.uri == ("")) = false := by
      cases hb : (a.uri == ("")) with
      | true => exact absurd (eq_of_beq hb) (hne a ha)
      | false => rfl
    simp [hb2]
  unfold dedupStep
  rw [hfilter, dedupSources_eq_dedupSpec, dedupSpec_eq_self l hnd]

/-- C9 witness: an already-unique list passes through unchanged. -/
theorem dedup_idempotent_on_unique_witness :
    dedupStep [{ uri := ("https://a.co"), title := ("A") },
               { uri := ("https://b.co"), title := ("B") }] =
      [{ uri := ("https://a.co"), title := ("A") },
       { uri := ("https://b.co"), title := ("B") }] :=
  dedup_idempotent_on_unique _ (by decide) (by decide)

/-- C6: translation failure is absorbed: `translateKeywords` returns the
empty string on every failed outcome (it never re-raises); the topic-focus
clause of the built prompt then lists only the original keywords; and the
whole request still completes successfully whenever the main query succeeds,
whatever the translation failure was. -/
theorem translate_failure_fallback :
    (∀ e, translateKeywords (Except.error e) = []) ∧
    (∀ st d1 d2 e, st ≠ [] →
      promptOf st (translateKeywords (Except.error e)) d1 d2 =
        promptPart1 ++ (topicClauseHead ++ st ++ topicClauseTail) ++ promptPart2 ++
          d1 ++ promptPart3 ++ d2 ++ promptPart4) ∧
    (∀ d1 d2 filters e runQuery resp,
      runQuery (fetchPrompt d1 d2 filters (Except.error e)) = Except.ok resp →
      fetchDigitalEconomyArticles d1 d2 filters (Except.error e) runQuery =
        Except.ok { articles := parseArticleResponse resp.text,
                    sources := dedupSources (extractSources resp) }) := by
  refine ⟨fun e => rfl, ?_, ?_⟩
  · intro st d1 d2 e hst
    unfold promptOf topicFocusInstruction combinedKeywords translateKeywords
    simp [hst]
  · intro d1 d2 filters e runQuery resp h
    unfold fetchDigitalEconomyArticles
    rw [h]

/-- C6 witness: a failed translation leaves only the original keywords in the
topic-focus clause. -/
theorem translate_failure_fallback_witness :
    promptOf (("人工智能").data) (translateKeywords (Except.error { msg := [] }))
        (("2026-10-04").data) (("2026-10-11").data) =
      promptPart1 ++ (topicClauseHead ++ ("人工智能").data ++ topicClauseTail) ++
        promptPart2 ++ ("2026-10-04").data ++ promptPart3 ++ ("2026-10-11").data ++
        promptPart4 :=
  translate_failure_fallback.2.1 (("人工智能").data) (("2026-10-04").data)
    (("2026-10-11").data) { msg := [] } (by decide)

/-- C7: the built prompt contains the topic-focus clause iff `subTopic` is
non-empty.  When `subTopic` is non-empty the clause header (hence the marker
主题聚焦) is an infix of the prompt for every date pair; when `subTopic` is
empty the prompt is exactly the template with nothing spliced in, the marker
does not occur in it (checked on concrete dates), while the scope,
content-type, language-balance, timeframe, sorting and output-format clauses
all remain present. -/
theorem topic_clause_iff_subtopic :
    (∀ st tr d1 d2, st ≠ [] → topicMarker <:+: promptOf st tr d1 d2) ∧
    (∀ tr d1 d2, promptOf [] tr d1 d2 =
      promptPart1 ++ promptPart2 ++ d1 ++ promptPart3 ++ d2 ++ promptPart4) ∧
    (¬ topicMarker <:+: promptOf [] [] (("2026-10-04").data) (("2026-10-11").data)) ∧
    ((("视角层级").data <:+: promptOf [] [] (("2026-10-04").data) (("2026-10-11").data)) ∧
     (("内容类型").data <:+: promptOf [] [] (("2026-10-04").data) (("2026-10-11").data)) ∧
     (("语言均衡").data <:+: promptOf [] [] (("2026-10-04").data) (("2026-10-11").data)) ∧
     (("时间范围").data <:+: promptOf [] [] (("2026-10-04").data) (("2026-10-11").data)) ∧
     (("排序标准").data <:+: promptOf [] [] (("2026-10-04").data) (("2026-10-11").data)) ∧
     (("输出格式").data <:+: promptOf [] [] (("2026-10-04").data) (("2026-10-11").data))) := by
  refine ⟨?_, ?_, by decide, by decide, by decide, by decide, by decide, by decide, by decide⟩
  · intro st tr d1 d2 hst
    have h1 : topicMarker <:+: topicClauseHead :=
      ⟨("4.  **").data, (" (Topic Focus):** 文章内容必须聚焦于以下一个或多个主题：“").data,
        by decide⟩
    have h2 : topicClauseHead <:+: promptOf st tr d1 d2 := by
      unfold promptOf topicFocusInstruction
      rw [if_pos hst]
      exact ⟨promptPart1,
        combinedKeywords st tr ++ topicClauseTail ++ (promptPart2 ++
          (d1 ++ (promptPart3 ++ (d2 ++ promptPart4)))),
        by simp [List.append_assoc]⟩
    exact h1.trans h2
  · intro tr d1 d2
    unfold promptOf topicFocusInstruction
    simp

/-- C7 witness: the clause is present for a concrete non-empty subTopic. -/
theorem topic_clause_iff_subtopic_witness :
    topicMarker <:+:
      promptOf (("区块链").data) (("blockchain").data)
        (("2026-10-04").data) (("2026-10-11").data) :=
  topic_clause_iff_subtopic.1 (("区块链").data) (("blockchain").data)
    (("2026-10-04").data) (("2026-10-11").data) (by decide)

/-- C8: the error contract of the orchestrator.  The fetch raises exactly when
the main query raises, always with the single generic user-facing message;
translation failure is excluded (absorbed before the query); on query success
the result is the structured record built from the response. -/
theorem fetch_error_contract (d1 d2 : List Char) (filters : FilterOptions)
    (tr : Except TranslateError (List Char))
    (runQuery : List Char → Except QueryError GenResponse) :
    (∀ q, runQuery (fetchPrompt d1 d2 filters tr) = Except.error q →
      fetchDigitalEconomyArticles d1 d2 filters tr runQuery =
        Except.error fetchFailMessage) ∧
    (∀ resp, runQuery (fetchPrompt d1 d2 filters tr) = Except.ok resp →
      fetchDigitalEconomyArticles d1 d2 filters tr runQuery =
        Except.ok { articles := parseArticleResponse resp.text,
                    sources := dedupSources (extractSources resp) }) ∧
    (∀ msg, fetchDigitalEconomyArticles d1 d2 filters tr runQuery =
        Except.error msg → msg = fetchFailMessage) := by
  refine ⟨?_, ?_, ?_⟩
  · intro q h
    unfold fetchDigitalEconomyArticles
    rw [h]
  · intro resp h
    unfold fetchDigitalEconomyArticles
    rw [h]
  · intro msg h
    unfold fetchDigitalEconomyArticles at h
    cases hq : runQuery (fetchPrompt d1 d2 filters tr) with
    | error q =>
      rw [hq] at h
      cases h
      rfl
    | ok resp =>
      rw [hq] at h
      cases h

/-- C8 witness: a failing query oracle produces exactly the generic message. -/
theorem fetch_error_contract_witness :
    fetchDigitalEconomyArticles (("2026-10-04").data) (("2026-10-11").data)
        { subTopic := [] } (Except.error { msg := [] })
        (fun _ => Except.error { msg := ("boom").data }) =
      Except.error fetchFailMessage :=
  (fetch_error_contract (("2026-10-04").data) (("2026-10-11").data)
      { subTopic := [] } (Except.error { msg := [] })
      (fun _ => Except.error { msg := ("boom").data })).1
    { msg := ("boom").data } rfl

end DigitalEconomy
